import Mathlib

/-
  Verification of the startup configuration and locale resolution orchestrator
  of the vscode bootstrap layer (main.js).

  The definitions below are a shallow embedding of the source: pure functions
  become Lean functions, the stateful memoization cell becomes explicit state
  passing, external collaborators (the platform, the file system, JSON.parse,
  the NLS provider, mkdirp) become oracle parameters, and JavaScript exceptions
  become Except values.
-/

/-- The set of characters a JavaScript regular-expression dot refuses to match:
line feed, carriage return and the two unicode line separators. Everything
else is matched by the dot. -/
def isDot (c : Char) : Bool :=
  !(c = '\n' || c = '\r' || c = Char.ofNat 8232 || c = Char.ofNat 8233)

/-- The backslash character. -/
def bslash : Char := Char.ofNat 92

/-- The single-quote character. -/
def squoteC : Char := Char.ofNat 39

/-- Scanner for the tail of the string-literal branches of the stripComments
regular expression (main.js line 367): after an opening quote q, repeatedly
consume either a character that is neither q nor a backslash, or a backslash
followed by a dot character, until the closing q. Returns the number of
characters consumed, including the closing quote, or none when the branch
fails to match (which is exactly when the greedy regex engine fails). -/
def strBodyN (q : Char) : List Char → Option Nat
  | [] => none
  | c :: rest =>
    if c = q then some 1
    else if c = bslash then
      match rest with
      | [] => none
      | d :: rest2 => if isDot d then Option.map (fun n => n + 2) (strBodyN q rest2) else none
    else Option.map (fun n => n + 1) (strBodyN q rest)

/-- Scanner for the tail of the block-comment branch of the stripComments
regular expression: after the opening slash-star, lazily consume units (a
carriage-return/line-feed pair, a bare line feed, or any dot character) until
the closing star-slash. Returns the number of characters consumed including
the two closing ones. -/
def bcBodyN : List Char → Option Nat
  | [] => none
  | [_] => none
  | c :: d :: rest =>
    if c = '*' && d = '/' then some 2
    else if c = '\r' && d = '\n' then Option.map (fun n => n + 2) (bcBodyN rest)
    else if c = '\n' || isDot c then Option.map (fun n => n + 1) (bcBodyN (d :: rest))
    else none

/-- Scanner for the tail of the line-comment branch of the stripComments
regular expression: after the two slashes, lazily consume dot characters until
an optional carriage return followed by a line feed, a bare line feed, or the
end of the input. Returns the number of characters consumed including the
terminator. -/
def lcBodyN : List Char → Option Nat
  | [] => some 0
  | c :: rest =>
    if c = '\n' then some 1
    else if c = '\r' then
      match rest with
      | d :: _ => if d = '\n' then some 2 else none
      | [] => none
    else if isDot c then Option.map (fun n => n + 1) (lcBodyN rest)
    else none

/-- Which branch of the stripComments regular expression matched: a string
literal (first or second group), a block comment (third group) or a line
comment (fourth group). -/
inductive MatchKind where
  | str
  | block
  | line
deriving DecidableEq

/-- One attempt of the stripComments regular expression at the head of the
input, following the ordered alternation of its four branches: double-quoted
string, single-quoted string, block comment, line comment. Returns the kind of
the branch that matched together with the total number of characters matched,
or none when no branch matches at this position. -/
def tryToken : List Char → Option (MatchKind × Nat)
  | [] => none
  | c :: rest =>
    if c = '"' then Option.map (fun n => (MatchKind.str, n + 1)) (strBodyN '"' rest)
    else if c = squoteC then Option.map (fun n => (MatchKind.str, n + 1)) (strBodyN squoteC rest)
    else if c = '/' then
      match rest with
      | [] => none
      | d :: rest2 =>
        if d = '*' then Option.map (fun n => (MatchKind.block, n + 2)) (bcBodyN rest2)
        else if d = '/' then Option.map (fun n => (MatchKind.line, n + 2)) (lcBodyN rest2)
        else none
    else none

/-- The replacement callback of stripComments (main.js lines 369-387): a
matched string is kept verbatim, a block comment is removed, and a line
comment whose match is longer than two characters and ends in a line feed is
replaced by that line feed, preceded by a carriage return when the character
before the line feed is one; otherwise the line comment is removed. -/
def commentReplacement (k : MatchKind) (m : List Char) : List Char :=
  match k with
  | MatchKind.str => m
  | MatchKind.block => []
  | MatchKind.line =>
    if 2 < m.length ∧ m.getLast? = some '\n' then
      if m.dropLast.getLast? = some '\r' then ['\r', '\n'] else ['\n']
    else []

/-- The global left-to-right replacement loop of String.prototype.replace as
used by stripComments: at each position try the regular expression; on a match
emit the replacement and continue after the match, otherwise emit the current
character and move one position forward. The fuel argument only serves
termination; it is irrelevant as long as it is at least the length of the
input (stripGo_fuel below), and stripComments instantiates it that way. -/
def stripGo (fuel : Nat) (l : List Char) : List Char :=
  match fuel, l with
  | _, [] => []
  | 0, _ :: _ => []
  | f + 1, c :: cs =>
    match tryToken (c :: cs) with
    | some (k, n) => commentReplacement k ((c :: cs).take n) ++ stripGo f ((c :: cs).drop n)
    | none => c :: stripGo f cs

/-- main.js stripComments (lines 366-388): remove comments from a JSONC text
by a single global regex replacement. -/
def stripComments (content : List Char) : List Char := stripGo content.length content

/-- JavaScript String.prototype.toLowerCase, modelled characterwise. -/
def jsToLowerCase (s : String) : String := String.mk (s.data.map Char.toLower)

/-- Truthiness of a JavaScript string-or-undefined value: undefined and the
empty string are falsy, every other string is truthy. -/
def truthyStr : Option String → Bool
  | none => false
  | some s => !(s == "")

/-- The text of the JavaScript regular expression used by getJSFlags, as the
character pattern it searches for. -/
def maxOldSpacePat : List Char := "max_old_space_size=".toList

/-- The unanchored search of the getJSFlags regular expression (main.js line
190): whether the subject contains the pattern followed by at least one
digit. -/
def hasMaxOldSpaceSize : List Char → Bool
  | [] => false
  | c :: cs =>
    (maxOldSpacePat.isPrefixOf (c :: cs) &&
      (match (c :: cs).drop maxOldSpacePat.length with
       | d :: _ => d.isDigit
       | [] => false)) || hasMaxOldSpaceSize cs

/-- main.js getJSFlags (lines 181-195). The two arguments are the js-flags and
max-memory entries of the parsed CLI arguments (string options, so string or
undefined). When js-flags is undefined, the regular expression is still run
against it: JavaScript coerces undefined to the string undefined, which the
pattern never matches. -/
def getJSFlags (jsFlagsArg maxMemoryArg : Option String) : Option String :=
  let jsFlags1 : List String :=
    match jsFlagsArg with
    | some s => if s = "" then [] else [s]
    | none => []
  let subject : String :=
    match jsFlagsArg with
    | some s => s
    | none => "undefined"
  let jsFlags2 : List String :=
    match maxMemoryArg with
    | some m =>
      if m = "" then jsFlags1
      else if hasMaxOldSpaceSize subject.toList then jsFlags1
      else jsFlags1 ++ ["--max_old_space_size=" ++ m]
    | none => jsFlags1
  match jsFlags2 with
  | [] => none
  | l => some (String.intercalate " " l)

/-- JavaScript Array.prototype.indexOf: the first index of the element, or
minus one when absent. -/
def jsIndexOf : List String → String → Int
  | [], _ => -1
  | a :: as, x =>
    if a = x then 0
    else
      let r := jsIndexOf as x
      if r = -1 then -1 else r + 1

/-- main.js getNodeCachedDir()._compute (lines 296-313): undefined when the
no-cached-data flag occurs in process.argv at an index greater than zero, or
the VSCODE_DEV environment variable is truthy, or the product commit is
falsy; otherwise the CachedData path under the user-data path keyed by the
commit (path.join modelled as slash concatenation). -/
def computeCachedDataDir (argv : List String) (vscodeDevEnv commit : Option String)
    (userDataPath : String) : Option String :=
  if 0 < jsIndexOf argv "--no-cached-data" then none
  else if truthyStr vscodeDevEnv then none
  else
    match commit with
    | none => none
    | some c => if c = "" then none else some (userDataPath ++ "/CachedData/" ++ c)

/-- A value of the flags.json configuration object: JSON booleans or strings
(the two shapes the switch-emission loop distinguishes). -/
inductive FlagVal where
  | bval (b : Bool)
  | sval (s : String)
deriving DecidableEq

/-- The parsed flags.json configuration: a JSON object, as ordered key/value
pairs. -/
abbrev FlagsConfig := List (String × FlagVal)

/-- The in-memory default flags configuration (main.js lines 118-121). -/
def defaultFlagsConfig : FlagsConfig := [("disable-color-correct-rendering", FlagVal.bval true)]

/-- The apostrophe, as a one-character string. -/
def apos : String := String.singleton squoteC

/-- The commented default template written to flags.json on first run
(main.js lines 123-138). -/
def defaultFlagsConfigRaw : String :=
  "// Allows to pass flags to Chromium" ++ apos ++ "s command line.\n" ++
  "//\n" ++
  "// If you see rendering issues in VSCode and have a better experience\n" ++
  "// with software rendering, you can configure this by adding:\n" ++
  "//\n" ++
  "// " ++ apos ++ "disable-gpu" ++ apos ++ ": true\n" ++
  "//\n" ++
  "// NOTE: Changing this file requires a restart of VSCode.\n" ++
  "//\n" ++
  "// PLEASE DO NOT CHANGE WITHOUT UNDERSTANDING THE IMPACT\n" ++
  "\x7b\n" ++
  "\t// Enabled by default by VSCode to resolve color issues in the renderer\n" ++
  "\t// See https://github.com/Microsoft/vscode/issues/51791 for details\n" ++
  "\t\"disable-color-correct-rendering\": true\n" ++
  "\x7d"

/-- The outcome of the synchronous read of flags.json: content, a file-not-found
error (whose code is ENOENT), or any other input/output error. -/
inductive ReadResult where
  | ok (content : String)
  | enoent
  | otherError (msg : String)
deriving DecidableEq

/-- The flags.json portion of main.js configureCommandlineSwitches (lines
140-154): try to read and parse the file; on ENOENT write the default template
(best effort); on any other read or parse error fall back to the in-memory
default and leave the file alone. The JSON parser is the external JSON.parse,
passed as an oracle whose none case is its exception (which never carries the
ENOENT code). Returns the configuration used together with the content
written to disk, none when nothing is written. The switch-emission loop and
the js-flags hand-off (lines 156-174) are side effects outside this model. -/
def configureCommandlineSwitches (read : ReadResult)
    (parse : List Char → Option FlagsConfig) : FlagsConfig × Option String :=
  match read with
  | ReadResult.ok content =>
    match parse (stripComments content.toList) with
    | some cfg => (cfg, none)
    | none => (defaultFlagsConfig, none)
  | ReadResult.enoent => (defaultFlagsConfig, some defaultFlagsConfigRaw)
  | ReadResult.otherError _ => (defaultFlagsConfig, none)

/-- Reading the flags.json path against a modelled file-system state (the
content of the file, or none when absent) with no input/output fault. -/
def readFlagsFile : Option String → ReadResult
  | some c => ReadResult.ok c
  | none => ReadResult.enoent

/-- Applying the write action of the flags store to the modelled file. -/
def applyWrite (fsFile : Option String) : Option String → Option String
  | none => fsFile
  | some w => some w

/-- One run of the flags store against a modelled file-system state: the
configuration obtained and the state of the file afterwards. -/
def loadFlagsFromFs (fsFile : Option String)
    (parse : List Char → Option FlagsConfig) : FlagsConfig × Option String :=
  let r := configureCommandlineSwitches (readFlagsFile fsFile) parse
  (r.1, applyWrite fsFile r.2)

/-- An NLS configuration as the orchestrator sees it: a locale, an available-
languages map, and the optional language-pack-support marker added by startup
(absent on freshly constructed configurations). -/
structure NLSConfiguration where
  locale : String
  availableLanguages : List (String × String)
  languagePackSupport : Option Bool := none
deriving DecidableEq

/-- The shape of the locale field extracted from the parsed locale.json: a
string value, or any other shape (number, boolean, object, array, null or
absent). -/
inductive LocaleField where
  | strVal (s : String)
  | otherVal
deriving DecidableEq

/-- The file branch of main.js getUserDefinedLocale (lines 404-413): read
User/locale.json (oracle readFile), strip comments, JSON-parse and extract the
locale field (oracle parse, whose error case covers both a JSON.parse
exception and a failing field access); only a truthy string is accepted,
lower-cased; every failure is swallowed into undefined. -/
def localeFromFile (readFile : Except String String)
    (parse : List Char → Except String LocaleField) : Option String :=
  match readFile with
  | Except.error _ => none
  | Except.ok content =>
    match parse (stripComments content.toList) with
    | Except.error _ => none
    | Except.ok (LocaleField.strVal s) => if s = "" then none else some (jsToLowerCase s)
    | Except.ok LocaleField.otherVal => none

/-- main.js getUserDefinedLocale (lines 398-414): a truthy CLI locale wins,
lower-cased, otherwise the persisted locale file decides. -/
def getUserDefinedLocale (cliLocale : Option String)
    (readFile : Except String String)
    (parse : List Char → Except String LocaleField) : Option String :=
  match cliLocale with
  | some l => if l = "" then localeFromFile readFile parse else some (jsToLowerCase l)
  | none => localeFromFile readFile parse

/-- The observable outcome of one call of resolveNlsConfiguration: the
configuration it returns, the value of the module-level memoization cell
nlsConfigurationPromise after the call, the locales submitted to the NLS
provider during the call, and whether app.getLocale() was queried. -/
structure NlsResolveResult where
  config : NLSConfiguration
  state : Option (Option NLSConfiguration)
  providerQueries : List String
  platformQueried : Bool
deriving DecidableEq

/-- main.js resolveNlsConfiguration (lines 324-360) together with the
memoized module state nlsConfigurationPromise (lines 46-54, modelled as the
value the promise resolves to, or none while unset). The provider stands for
lp.getNLSConfiguration at the fixed commit, user-data path and metadata file;
its none result means no language pack for that locale. When the memoized
value is missing, a truthy locale argument is submitted to the provider,
otherwise the cell is filled with an already-resolved undefined. When the
awaited value is falsy the platform locale is queried: a falsy platform
locale yields the built-in en fallback, otherwise the lower-cased platform
locale is submitted to the provider, falling back to a locally built
configuration. Note that the result of this platform branch is not written
back to the cell. -/
def resolveNlsConfiguration (provider : String → Option NLSConfiguration)
    (appLocale : String) (locale : Option String)
    (st : Option (Option NLSConfiguration)) : NlsResolveResult :=
  let step1 : Option NLSConfiguration × List String :=
    match st, locale with
    | some v, _ => (v, [])
    | none, some l => if l = "" then (none, []) else (provider l, [l])
    | none, none => (none, [])
  let st2 : Option (Option NLSConfiguration) := some step1.1
  match step1.1 with
  | some cfg =>
    { config := cfg, state := st2, providerQueries := step1.2, platformQueried := false }
  | none =>
    if appLocale = "" then
      { config := { locale := "en", availableLanguages := [] }, state := st2,
        providerQueries := step1.2, platformQueried := true }
    else
      let al := jsToLowerCase appLocale
      match provider al with
      | some cfg =>
        { config := cfg, state := st2, providerQueries := step1.2 ++ [al],
          platformQueried := true }
      | none =>
        { config := { locale := al, availableLanguages := [] }, state := st2,
          providerQueries := step1.2 ++ [al], platformQueried := true }

/-- The environment published for the next stage by startup: the serialized
NLS configuration (modelled by the configuration itself) and the cached-data
directory, empty string when disabled. -/
structure StartupEnv where
  vscodeNlsConfig : NLSConfiguration
  vscodeNodeCachedDataDir : String
deriving DecidableEq

/-- main.js startup (lines 85-96): force the language-pack-support marker to
true on the configuration, then publish the environment and load the main
bundle. -/
def startup (cachedDataDir : Option String) (nlsConfig : NLSConfiguration) : StartupEnv :=
  let nlsConfig2 : NLSConfiguration := { nlsConfig with languagePackSupport := some true }
  { vscodeNlsConfig := nlsConfig2,
    vscodeNodeCachedDataDir :=
      match cachedDataDir with
      | some s => if s = "" then "" else s
      | none => "" }

/-- main.js getNodeCachedDir().ensureExists (lines 286-294): apply the
external directory-creation primitive bootstrap.mkdirp to the computed value
(possibly undefined) and return the value; any failure is swallowed and
yields undefined. -/
def ensureExists (value : Option String)
    (mkdirp : Option String → Except String Unit) : Option String :=
  match mkdirp value with
  | Except.ok _ => value
  | Except.error _ => none

/-- main.js onReady (lines 98-108): join the two eagerly started branches
(the cache-directory existence check and the user-defined-locale promise),
then resolve the NLS configuration and call startup; the surrounding catch
turns any rejection into a logged error, in which case startup is not called.
The result is the startup environment when startup ran, none when the catch
swallowed a rejection. -/
def onReady (cacheBranch : Except String (Option String))
    (localeBranch : Except String (Option String))
    (nlsResolve : Option String → Except String NLSConfiguration) : Option StartupEnv :=
  match cacheBranch, localeBranch with
  | Except.ok cachedDataDir, Except.ok locale =>
    match nlsResolve locale with
    | Except.ok cfg => some (startup cachedDataDir cfg)
    | Except.error _ => none
  | Except.error _, _ => none
  | _, Except.error _ => none

/-- Well-formedness of a string-literal body for quote q: a sequence of
characters other than q and the backslash, and of backslash-plus-dot escape
pairs, exactly what the string branch of the regular expression consumes
before the closing quote. -/
def strBodyOk (q : Char) : List Char → Bool
  | [] => true
  | c :: rest =>
    if c = q then false
    else if c = bslash then
      match rest with
      | [] => false
      | d :: rest2 => isDot d && strBodyOk q rest2
    else strBodyOk q rest

/-- Well-formedness of a block-comment body: no star-slash inside, every
carriage return paired with a line feed, and no unicode line separators, so
that the block branch of the regular expression consumes it entirely. -/
def blockBodyOk : List Char → Bool
  | [] => true
  | [c] => c = '\n' || isDot c
  | c :: d :: rest =>
    if c = '*' && d = '/' then false
    else if c = '\r' && d = '\n' then blockBodyOk rest
    else if c = '\n' || isDot c then blockBodyOk (d :: rest)
    else false

/-- A token of a well-formed JSONC text: a double- or single-quoted string
literal with the given body, a block comment with the given body, a line
comment with the given body and terminator (line feed, carriage return plus
line feed, or nothing at end of input), or a plain character that starts no
literal or comment. -/
inductive JToken where
  | dstr (body : List Char)
  | sstr (body : List Char)
  | blockc (body : List Char)
  | linec (body : List Char) (nl : List Char)
  | raw (c : Char)
deriving DecidableEq

/-- The concrete text of a token. -/
def renderTok : JToken → List Char
  | JToken.dstr b => '"' :: (b ++ ['"'])
  | JToken.sstr b => squoteC :: (b ++ [squoteC])
  | JToken.blockc b => '/' :: '*' :: (b ++ ['*', '/'])
  | JToken.linec b nl => '/' :: '/' :: (b ++ nl)
  | JToken.raw c => [c]

/-- The concrete text of a token sequence. -/
def renderToks (ts : List JToken) : List Char := (ts.map renderTok).join

/-- What a reference comment stripper keeps of each token: string literals
verbatim, nothing of a block comment, the terminating newline of a line
comment, plain characters unchanged. -/
def stripTokRepl : JToken → List Char
  | JToken.dstr b => '"' :: (b ++ ['"'])
  | JToken.sstr b => squoteC :: (b ++ [squoteC])
  | JToken.blockc _ => []
  | JToken.linec _ nl => nl
  | JToken.raw c => [c]

/-- Modelled from the spec: the reference comment stripper that ignores
comment syntax found inside string literals, applied to a tokenized
well-formed JSONC text (the spec describes it on text; on a token sequence it
keeps every string literal verbatim and replaces only the comment tokens). -/
def referenceStrip (ts : List JToken) : List Char := (ts.map stripTokRepl).join

/-- Well-formedness of a single token: string bodies contain no unescaped
quote or stray backslash, block bodies contain no terminator or lone carriage
return, line bodies contain only dot characters with a legal terminator, and
a raw character is none of the three characters that can open a match. -/
def tokOk : JToken → Bool
  | JToken.dstr b => strBodyOk '"' b
  | JToken.sstr b => strBodyOk squoteC b
  | JToken.blockc b => blockBodyOk b
  | JToken.linec b nl =>
    b.all isDot && (nl == ['\n'] || nl == ['\r', '\n'] || nl == [])
  | JToken.raw c => !(c = '"' || c = squoteC || c = '/')

/-- Whether a token may be followed by more text: only a line comment with no
terminator (matched by the end-of-input anchor) must come last. -/
def lineTerminated : JToken → Bool
  | JToken.linec _ nl => !(nl == [])
  | _ => true

/-- Well-formedness of a token sequence: every token well formed, and an
unterminated line comment only in final position. -/
def wfToks : List JToken → Bool
  | [] => true
  | [t] => tokOk t
  | t :: ts => tokOk t && lineTerminated t && wfToks ts

theorem tryToken_pos : ∀ (l : List Char) (k : MatchKind) (n : Nat),
    tryToken l = some (k, n) → 1 ≤ n := by
  intro l k n h
  cases l with
  | nil => simp [tryToken] at h
  | cons c rest =>
    simp only [tryToken] at h
    split_ifs at h
    · rcases Option.map_eq_some'.mp h with ⟨a, _, ha⟩
      cases ha; omega
    · rcases Option.map_eq_some'.mp h with ⟨a, _, ha⟩
      cases ha; omega
    · cases rest with
      | nil => simp at h
      | cons d rest2 =>
        simp only at h
        split_ifs at h
        · rcases Option.map_eq_some'.mp h with ⟨a, _, ha⟩
          cases ha; omega
        · rcases Option.map_eq_some'.mp h with ⟨a, _, ha⟩
          cases ha; omega

theorem stripGo_nil (f : Nat) : stripGo f [] = [] := by
  cases f <;> rfl

theorem stripGo_fuel : ∀ (f1 f2 : Nat) (l : List Char), l.length ≤ f1 → l.length ≤ f2 →
    stripGo f1 l = stripGo f2 l := by
  intro f1
  induction f1 with
  | zero =>
    intro f2 l h1 _
    have : l = [] := List.eq_nil_of_length_eq_zero (Nat.le_zero.mp h1)
    subst this
    rw [stripGo_nil, stripGo_nil]
  | succ f ih =>
    intro f2 l h1 h2
    cases l with
    | nil => rw [stripGo_nil, stripGo_nil]
    | cons c cs =>
      cases f2 with
      | zero => simp at h2
      | succ g =>
        simp only [stripGo]
        cases htt : tryToken (c :: cs) with
        | none =>
          simp only [List.length_cons] at h1 h2
          exact congrArg (fun t => c :: t) (ih g cs (Nat.lt_succ_iff.mp h1) (Nat.lt_succ_iff.mp h2))
        | some kn =>
          obtain ⟨k, n⟩ := kn
          have hn : 1 ≤ n := tryToken_pos _ _ _ htt
          have hd : ((c :: cs).drop n).length ≤ cs.length := by
            simp only [List.length_drop, List.length_cons]
            omega
          simp only [List.length_cons] at h1 h2
          exact congrArg (fun t => commentReplacement k ((c :: cs).take n) ++ t)
            (ih g ((c :: cs).drop n) (le_trans hd (Nat.lt_succ_iff.mp h1))
              (le_trans hd (Nat.lt_succ_iff.mp h2)))

theorem stripGo_eq_stripComments (f : Nat) (l : List Char) (h : l.length ≤ f) :
    stripGo f l = stripComments l :=
  stripGo_fuel f l.length l h (Nat.le_refl _)

theorem jsIndexOf_spec (x : String) : ∀ (l : List String),
    -1 ≤ jsIndexOf l x ∧ (jsIndexOf l x = -1 ↔ x ∉ l) := by
  intro l
  induction l with
  | nil =>
    refine ⟨by simp [jsIndexOf], ?_⟩
    simp [jsIndexOf]
  | cons a as ih =>
    obtain ⟨ihge, ihiff⟩ := ih
    by_cases hax : a = x
    · subst hax
      refine ⟨by simp [jsIndexOf], ?_⟩
      simp [jsIndexOf]
    · simp only [jsIndexOf, if_neg hax]
      by_cases hr : jsIndexOf as x = -1
      · simp only [if_pos hr]
        have hnot : x ∉ as := ihiff.mp hr
        refine ⟨by omega, ?_⟩
        simp only [List.mem_cons]
        constructor
        · intro _ h
          rcases h with h1 | h2
          · exact hax h1.symm
          · exact hnot h2
        · intro _
          trivial
      · simp only [if_neg hr]
        have hge : 0 ≤ jsIndexOf as x := by omega
        have hmem : x ∈ as := by
          by_contra hno
          exact hr (ihiff.mpr hno)
        refine ⟨by omega, ?_, ?_⟩
        · intro h
          omega
        · intro h
          exact absurd (List.mem_cons.mpr (Or.inr hmem)) h

theorem jsIndexOf_cons_pos_iff (exe x : String) (rest : List String) (hexe : exe ≠ x) :
    0 < jsIndexOf (exe :: rest) x ↔ x ∈ rest := by
  obtain ⟨hge, hiff⟩ := jsIndexOf_spec x rest
  simp only [jsIndexOf, if_neg hexe]
  by_cases hr : jsIndexOf rest x = -1
  · simp only [if_pos hr]
    constructor
    · intro h
      omega
    · intro hmem
      exact absurd hmem (hiff.mp hr)
  · simp only [if_neg hr]
    constructor
    · intro _
      by_contra hno
      exact hr (hiff.mpr hno)
    · intro _
      omega

/-- C8: with a program name in front that is not itself the flag, cache
directory computation is disabled exactly when the no-cached-data flag occurs
among the actual arguments, or the development environment variable is
truthy, or no commit identifier is known (falsy commit); in every other case
it returns the deterministic CachedData path keyed by the commit under the
user-data path; and recomputation with the same inputs gives the same
result. -/
theorem computeCachedDataDir_spec (exe : String) (rest : List String)
    (dev commit : Option String) (udp : String)
    (hexe : exe ≠ "--no-cached-data") :
    (computeCachedDataDir (exe :: rest) dev commit udp = none ↔
      ("--no-cached-data" ∈ rest ∨ truthyStr dev = true ∨ truthyStr commit = false)) ∧
    (∀ c, commit = some c → "--no-cached-data" ∉ rest → truthyStr dev = false → c ≠ "" →
      computeCachedDataDir (exe :: rest) dev commit udp = some (udp ++ "/CachedData/" ++ c)) ∧
    computeCachedDataDir (exe :: rest) dev commit udp =
      computeCachedDataDir (exe :: rest) dev commit udp := by
  have hposiff := jsIndexOf_cons_pos_iff exe "--no-cached-data" rest hexe
  refine ⟨?_, ?_, rfl⟩
  · by_cases hflag : "--no-cached-data" ∈ rest
    · have hpos : 0 < jsIndexOf (exe :: rest) "--no-cached-data" := hposiff.mpr hflag
      simp [computeCachedDataDir, hpos, hflag]
    · have hnpos : ¬ 0 < jsIndexOf (exe :: rest) "--no-cached-data" :=
        fun h => hflag (hposiff.mp h)
      cases hdev : truthyStr dev with
      | true => simp [computeCachedDataDir, hnpos, hdev]
      | false =>
        cases commit with
        | none =>
          have ht : truthyStr (none : Option String) = false := rfl
          simp [computeCachedDataDir, hnpos, hdev, ht, hflag]
        | some c =>
          by_cases hc : c = ""
          · subst hc
            have ht : truthyStr (some "") = false := rfl
            simp [computeCachedDataDir, hnpos, hdev, ht, hflag]
          · have ht : truthyStr (some c) = true := by simp [truthyStr, hc]
            simp [computeCachedDataDir, hnpos, hdev, ht, hflag, hc]
  · intro c hc hnmem hdev hcne
    subst hc
    have hnpos : ¬ 0 < jsIndexOf (exe :: rest) "--no-cached-data" :=
      fun h => hnmem (hposiff.mp h)
    simp [computeCachedDataDir, hnpos, hdev, hcne]

/-- C8 witness: a concrete invocation with the flag among the arguments is
disabled, and one without it yields the concrete CachedData path. -/
theorem computeCachedDataDir_spec_witness :
    computeCachedDataDir ["/usr/bin/electron", "--no-cached-data"] none (some "abc") "/ud" = none ∧
    computeCachedDataDir ["/usr/bin/electron"] none (some "abc") "/ud" =
      some "/ud/CachedData/abc" := by
  constructor
  · exact (computeCachedDataDir_spec "/usr/bin/electron" ["--no-cached-data"] none (some "abc")
      "/ud" (by decide)).1.mpr (Or.inl (by decide))
  · exact (computeCachedDataDir_spec "/usr/bin/electron" [] none (some "abc") "/ud"
      (by decide)).2.1 "abc" rfl (by decide) (by decide) (by decide)

/-- C3: getJSFlags, given max-memory 4096 and no js-flags value, returns
exactly the derived old-space-size flag; given an existing js-flags string
that already sets max_old_space_size, together with max-memory 4096, it
returns the existing string unmodified with no duplicate token appended. -/
theorem getJSFlags_max_memory :
    getJSFlags none (some "4096") = some "--max_old_space_size=4096" ∧
    getJSFlags (some "--foo --max_old_space_size=2048") (some "4096") =
      some "--foo --max_old_space_size=2048" := by
  constructor
  · decide
  · decide

/-- C10: startup forces the language-pack-support marker to true on the
published NLS configuration, for every incoming configuration (including the
locally built fallback shape, which carries no marker), and leaves the other
fields unchanged, so the next stage always observes the marker as true. -/
theorem startup_forces_languagePackSupport (cachedDataDir : Option String)
    (cfg : NLSConfiguration) :
    (startup cachedDataDir cfg).vscodeNlsConfig.languagePackSupport = some true ∧
    (startup cachedDataDir cfg).vscodeNlsConfig.locale = cfg.locale ∧
    (startup cachedDataDir cfg).vscodeNlsConfig.availableLanguages = cfg.availableLanguages := by
  exact ⟨rfl, rfl, rfl⟩

/-- C9: the flags file is written only in the file-not-found case, and then
with the default template; any other read failure, and any parse failure,
falls back to the in-memory default and leaves the file untouched; loading
from an existing file never changes the file and a second load agrees with
the first; and, provided the external parser reads the written template back
as the default configuration, a first run on an absent file materializes the
template and a second load still yields the same configuration. -/
theorem configureCommandlineSwitches_spec (parse : List Char → Option FlagsConfig)
    (content msg : String)
    (hparse : parse (stripComments defaultFlagsConfigRaw.toList) = some defaultFlagsConfig) :
    ((configureCommandlineSwitches (ReadResult.ok content) parse).2 = none) ∧
    (configureCommandlineSwitches (ReadResult.otherError msg) parse =
      (defaultFlagsConfig, none)) ∧
    (parse (stripComments content.toList) = none →
      configureCommandlineSwitches (ReadResult.ok content) parse = (defaultFlagsConfig, none)) ∧
    (∀ r, (configureCommandlineSwitches r parse).2 ≠ none ↔ r = ReadResult.enoent) ∧
    ((configureCommandlineSwitches ReadResult.enoent parse).2 = some defaultFlagsConfigRaw) ∧
    ((loadFlagsFromFs (some content) parse).2 = some content) ∧
    ((loadFlagsFromFs ((loadFlagsFromFs (some content) parse).2) parse).1 =
      (loadFlagsFromFs (some content) parse).1) ∧
    ((loadFlagsFromFs ((loadFlagsFromFs none parse).2) parse).1 =
      (loadFlagsFromFs none parse).1) := by
  have hnw : ∀ c : String, (configureCommandlineSwitches (ReadResult.ok c) parse).2 = none := by
    intro c
    simp only [configureCommandlineSwitches]
    cases parse (stripComments c.toList) <;> rfl
  have hkeep : (loadFlagsFromFs (some content) parse).2 = some content := by
    simp only [loadFlagsFromFs, readFlagsFile]
    rw [hnw content]
    rfl
  refine ⟨hnw content, rfl, ?_, ?_, rfl, hkeep, ?_, ?_⟩
  · intro h
    simp only [configureCommandlineSwitches]
    rw [h]
  · intro r
    cases r with
    | ok c =>
      simp only [hnw c]
      simp only [ne_eq, not_true_eq_false, false_iff]
      intro habs
      cases habs
    | enoent => simp [configureCommandlineSwitches]
    | otherError m => simp [configureCommandlineSwitches]
  · rw [hkeep]
  · have h1 : (loadFlagsFromFs none parse).2 = some defaultFlagsConfigRaw := rfl
    have h2 : (loadFlagsFromFs none parse).1 = defaultFlagsConfig := rfl
    rw [h1, h2]
    simp only [loadFlagsFromFs, readFlagsFile, configureCommandlineSwitches]
    rw [hparse]

/-- C9 witness: a concrete parser that reads the stripped default template
back as the default configuration satisfies the hypothesis, and a concrete
run on an existing file leaves it in place. -/
theorem configureCommandlineSwitches_spec_witness :
    (fun l => if l = stripComments defaultFlagsConfigRaw.toList
        then some defaultFlagsConfig else (none : Option FlagsConfig))
      (stripComments defaultFlagsConfigRaw.toList) = some defaultFlagsConfig ∧
    (loadFlagsFromFs (some "bad json")
      (fun l => if l = stripComments defaultFlagsConfigRaw.toList
        then some defaultFlagsConfig else none)).2 = some "bad json" := by
  constructor
  · simp
  · exact (configureCommandlineSwitches_spec
      (fun l => if l = stripComments defaultFlagsConfigRaw.toList
        then some defaultFlagsConfig else none)
      "bad json" "io" (by simp)).2.2.2.2.2.1

theorem jsToLowerCase_ne_empty (s : String) (h : s ≠ "") : jsToLowerCase s ≠ "" := by
  intro habs
  apply h
  have hdata := congrArg String.data habs
  simp only [jsToLowerCase] at hdata
  have hnil : s.data = [] := by
    cases hs : s.data with
    | nil => rfl
    | cons c cs =>
      rw [hs] at hdata
      simp at hdata
  cases s with
  | mk d =>
    simp only at hnil
    rw [hnil]

/-- C5 fails as stated: an empty-string locale field is a string, and the
claim then demands that string lower-cased, but the truthiness test of the
code discards it and yields no locale. -/
theorem localeFile_empty_string_not_accepted :
    getUserDefinedLocale none (Except.ok "")
      (fun _ => Except.ok (LocaleField.strVal "")) = none ∧
    (none : Option String) ≠ some (jsToLowerCase "") := by
  exact ⟨rfl, by decide⟩

/-- C5 (amended): reading the persisted locale file never propagates an
error: a read failure, a parse or field-access failure, a non-string locale
field and an empty-string locale field all yield no locale, and a non-empty
string field yields that string lower-cased. -/
theorem getUserDefinedLocale_file_spec (content msg : String)
    (parse : List Char → Except String LocaleField) :
    (getUserDefinedLocale none (Except.error msg) parse = none) ∧
    (∀ e, parse (stripComments content.toList) = Except.error e →
      getUserDefinedLocale none (Except.ok content) parse = none) ∧
    (parse (stripComments content.toList) = Except.ok LocaleField.otherVal →
      getUserDefinedLocale none (Except.ok content) parse = none) ∧
    (parse (stripComments content.toList) = Except.ok (LocaleField.strVal "") →
      getUserDefinedLocale none (Except.ok content) parse = none) ∧
    (∀ s, s ≠ "" → parse (stripComments content.toList) = Except.ok (LocaleField.strVal s) →
      getUserDefinedLocale none (Except.ok content) parse = some (jsToLowerCase s)) := by
  refine ⟨rfl, ?_, ?_, ?_, ?_⟩
  · intro e h
    simp only [getUserDefinedLocale, localeFromFile]
    rw [h]
  · intro h
    simp only [getUserDefinedLocale, localeFromFile]
    rw [h]
  · intro h
    simp only [getUserDefinedLocale, localeFromFile]
    rw [h]
    simp
  · intro s hs h
    simp only [getUserDefinedLocale, localeFromFile]
    rw [h]
    simp [hs]

/-- C5 witness: a parser returning a non-empty string locale field FR yields
the lower-cased locale fr. -/
theorem getUserDefinedLocale_file_spec_witness :
    getUserDefinedLocale none (Except.ok "")
      (fun _ => Except.ok (LocaleField.strVal "FR")) = some "fr" := by
  have h := (getUserDefinedLocale_file_spec "" "m"
    (fun _ => Except.ok (LocaleField.strVal "FR"))).2.2.2.2 "FR" (by decide) rfl
  rw [h]
  decide

/-- C4 fails as stated: with CLI locale FR present but no language pack for
fr installed, the code does consult the platform locale and resolves the
configuration to it, not to fr. -/
theorem cliLocale_platform_fallback :
    (resolveNlsConfiguration (fun _ => none) "de"
      (getUserDefinedLocale (some "FR") (Except.ok "")
        (fun _ => Except.ok LocaleField.otherVal))
      none).platformQueried = true ∧
    (resolveNlsConfiguration (fun _ => none) "de"
      (getUserDefinedLocale (some "FR") (Except.ok "")
        (fun _ => Except.ok LocaleField.otherVal))
      none).config.locale = "de" ∧
    ("de" : String) ≠ "fr" := by
  exact ⟨by decide, by decide, by decide⟩

/-- C4 (amended): a truthy CLI locale wins at the locale-descriptor stage,
lower-cased, without consulting the persisted file (the result is the same
for every file oracle); when the provider yields a configuration for that
locale the platform is not consulted and that configuration is the result;
when the provider yields nothing, the chain falls back to the platform: with
no CLI locale and no usable persisted file, the lower-cased platform locale
is what is submitted to the provider, and it is the locale of the fallback
configuration when the provider has no pack for it. -/
theorem locale_fallback_chain_spec (cli : String) (hcli : cli ≠ "")
    (readFile readFile2 : Except String String)
    (parse parse2 : List Char → Except String LocaleField)
    (provider : String → Option NLSConfiguration) (appLocale : String)
    (cfg : NLSConfiguration) :
    (getUserDefinedLocale (some cli) readFile parse = some (jsToLowerCase cli)) ∧
    (getUserDefinedLocale (some cli) readFile parse =
      getUserDefinedLocale (some cli) readFile2 parse2) ∧
    (provider (jsToLowerCase cli) = some cfg →
      (resolveNlsConfiguration provider appLocale (some (jsToLowerCase cli)) none).config
        = cfg ∧
      (resolveNlsConfiguration provider appLocale (some (jsToLowerCase cli)) none).platformQueried
        = false) ∧
    (appLocale ≠ "" →
      (resolveNlsConfiguration provider appLocale none none).providerQueries =
        [jsToLowerCase appLocale] ∧
      (provider (jsToLowerCase appLocale) = none →
        (resolveNlsConfiguration provider appLocale none none).config.locale =
          jsToLowerCase appLocale)) := by
  have h1 : getUserDefinedLocale (some cli) readFile parse = some (jsToLowerCase cli) := by
    simp [getUserDefinedLocale, hcli]
  have h1b : getUserDefinedLocale (some cli) readFile2 parse2 = some (jsToLowerCase cli) := by
    simp [getUserDefinedLocale, hcli]
  refine ⟨h1, h1.trans h1b.symm, ?_, ?_⟩
  · intro hp
    have hlc : jsToLowerCase cli ≠ "" := jsToLowerCase_ne_empty cli hcli
    constructor
    · simp [resolveNlsConfiguration, hlc, hp]
    · simp [resolveNlsConfiguration, hlc, hp]
  · intro happ
    constructor
    · cases hpa : provider (jsToLowerCase appLocale) with
      | none => simp [resolveNlsConfiguration, happ, hpa]
      | some c2 => simp [resolveNlsConfiguration, happ, hpa]
    · intro hpn
      simp [resolveNlsConfiguration, happ, hpn]

/-- C4 witness: CLI locale FR resolves to fr without the file, and with no
CLI locale and no usable file the platform locale DE-AT is what the chain
submits to the provider. -/
theorem locale_fallback_chain_spec_witness :
    ("FR" : String) ≠ "" ∧
    getUserDefinedLocale (some "FR") (Except.error "nofile")
      (fun _ => Except.ok LocaleField.otherVal) = some (jsToLowerCase "FR") ∧
    (resolveNlsConfiguration (fun _ => none) "DE-AT" none none).providerQueries =
      [jsToLowerCase "DE-AT"] := by
  refine ⟨by decide, ?_, ?_⟩
  · exact (locale_fallback_chain_spec "FR" (by decide) (Except.error "nofile") (Except.ok "x")
      (fun _ => Except.ok LocaleField.otherVal) (fun _ => Except.ok LocaleField.otherVal)
      (fun _ => none) "DE-AT" { locale := "", availableLanguages := [] }).1
  · exact ((locale_fallback_chain_spec "FR" (by decide) (Except.error "nofile") (Except.ok "x")
      (fun _ => Except.ok LocaleField.otherVal) (fun _ => Except.ok LocaleField.otherVal)
      (fun _ => none) "DE-AT" { locale := "", availableLanguages := [] }).2.2.2 (by decide)).1

/-- C2 fails as stated: after a first resolution that found no user-defined
locale and fell through to the platform locale, a second call re-queries both
the platform and the provider instead of reusing a cached configuration. -/
theorem nls_step3_requeried :
    (resolveNlsConfiguration (fun _ => none) "de" none
      ((resolveNlsConfiguration (fun _ => none) "de" none none).state)).platformQueried
      = true ∧
    (resolveNlsConfiguration (fun _ => none) "de" none
      ((resolveNlsConfiguration (fun _ => none) "de" none none).state)).providerQueries
      = ["de"] := by
  exact ⟨by decide, by decide⟩

/-- C2 (amended): the user-locale resolution of steps one and two is
memoized: the first call with a truthy locale queries the provider once and
stores the result in the cell, and a second call, finding the cell set to a
configuration, returns it with no provider query and without touching the
platform; the platform fall-back of step three, however, is not memoized:
whenever the cached value is the resolved undefined, the platform is queried
again. -/
theorem nls_memoization_spec (provider : String → Option NLSConfiguration)
    (appLocale appLocale2 l : String) (cfg : NLSConfiguration) (hl : l ≠ "")
    (hp : provider l = some cfg) :
    ((resolveNlsConfiguration provider appLocale (some l) none).state = some (some cfg)) ∧
    ((resolveNlsConfiguration provider appLocale (some l) none).config = cfg) ∧
    ((resolveNlsConfiguration provider appLocale (some l) none).providerQueries = [l]) ∧
    (resolveNlsConfiguration provider appLocale2 (some l)
        ((resolveNlsConfiguration provider appLocale (some l) none).state) =
      { config := cfg, state := some (some cfg), providerQueries := [],
        platformQueried := false }) ∧
    ((resolveNlsConfiguration provider appLocale none (some none)).platformQueried = true) := by
  have h1 : resolveNlsConfiguration provider appLocale (some l) none =
      { config := cfg, state := some (some cfg), providerQueries := [l],
        platformQueried := false } := by
    simp [resolveNlsConfiguration, hl, hp]
  refine ⟨by rw [h1], by rw [h1], by rw [h1], ?_, ?_⟩
  · rw [h1]
    simp [resolveNlsConfiguration]
  · by_cases happ : appLocale = ""
    · simp [resolveNlsConfiguration, happ]
    · cases hpa : provider (jsToLowerCase appLocale) with
      | none => simp [resolveNlsConfiguration, happ, hpa]
      | some c2 => simp [resolveNlsConfiguration, happ, hpa]

/-- C2 witness: a concrete provider with a pack for fr; the second call
returns the cached configuration with no queries at all. -/
theorem nls_memoization_spec_witness :
    ("fr" : String) ≠ "" ∧
    resolveNlsConfiguration
      (fun s => if s = "fr" then some { locale := "fr", availableLanguages := [] } else none)
      "de" (some "fr")
      ((resolveNlsConfiguration
        (fun s => if s = "fr" then some { locale := "fr", availableLanguages := [] } else none)
        "en-us" (some "fr") none).state) =
      { config := { locale := "fr", availableLanguages := [] },
        state := some (some { locale := "fr", availableLanguages := [] }),
        providerQueries := [], platformQueried := false } := by
  refine ⟨by decide, ?_⟩
  exact (nls_memoization_spec
    (fun s => if s = "fr" then some { locale := "fr", availableLanguages := [] } else none)
    "en-us" "de" "fr" { locale := "fr", availableLanguages := [] }
    (by decide) (by decide)).2.2.2.1

/-- C1 fails as stated: a rejection in a joined branch is caught and logged,
but bundle loading is then skipped rather than proceeding with partial
data. -/
theorem onReady_rejection_skips_startup :
    onReady (Except.ok none) (Except.error "boom")
      (fun _ => Except.ok { locale := "en", availableLanguages := [] }) = none := rfl

/-- C1 (amended): the ready handler never crashes; the cache branch built
from ensureExists always resolves (yielding undefined on a mkdirp failure),
and when every joined component resolves, bundle loading occurs exactly once
with the joined data; but a rejection escaping a joined branch, or a
rejection of the NLS resolution, is caught and logged with bundle loading
skipped, not performed with partial data. -/
theorem onReady_spec (mkdirp : Option String → Except String Unit)
    (value cachedDataDir locale : Option String) (msg : String)
    (nlsResolve : Option String → Except String NLSConfiguration) (cfg : NLSConfiguration) :
    ((∀ e, mkdirp value = Except.error e → ensureExists value mkdirp = none) ∧
     (mkdirp value = Except.ok () → ensureExists value mkdirp = value)) ∧
    (nlsResolve locale = Except.ok cfg →
      onReady (Except.ok cachedDataDir) (Except.ok locale) nlsResolve =
        some (startup cachedDataDir cfg)) ∧
    (∀ e, nlsResolve locale = Except.error e →
      onReady (Except.ok cachedDataDir) (Except.ok locale) nlsResolve = none) ∧
    (onReady (Except.error msg) (Except.ok locale) nlsResolve = none) ∧
    (onReady (Except.ok cachedDataDir) (Except.error msg) nlsResolve = none) := by
  refine ⟨⟨?_, ?_⟩, ?_, ?_, rfl, rfl⟩
  · intro e h
    simp [ensureExists, h]
  · intro h
    simp [ensureExists, h]
  · intro h
    simp [onReady, h]
  · intro e h
    simp [onReady, h]

/-- C1 witness: a run in which every component resolves loads the bundle
exactly once, and a failing mkdirp is swallowed into an undefined cache
directory. -/
theorem onReady_spec_witness :
    onReady (Except.ok (some "/cache")) (Except.ok (some "fr"))
      (fun _ => Except.ok { locale := "fr", availableLanguages := [] }) =
      some (startup (some "/cache") { locale := "fr", availableLanguages := [] }) ∧
    ensureExists (some "/cache") (fun _ => Except.error "eperm") = none := by
  constructor
  · exact (onReady_spec (fun _ => Except.error "eperm") (some "/cache") (some "/cache")
      (some "fr") "m" (fun _ => Except.ok { locale := "fr", availableLanguages := [] })
      { locale := "fr", availableLanguages := [] }).2.1 rfl
  · exact ((onReady_spec (fun _ => Except.error "eperm") (some "/cache") (some "/cache")
      (some "fr") "m" (fun _ => Except.ok { locale := "fr", availableLanguages := [] })
      { locale := "fr", availableLanguages := [] }).1).1 "eperm" rfl

theorem isDot_ne_nl (c : Char) (h : isDot c = true) : c ≠ '\n' := by
  intro habs
  subst habs
  simp [isDot] at h

theorem isDot_ne_cr (c : Char) (h : isDot c = true) : c ≠ '\r' := by
  intro habs
  subst habs
  simp [isDot] at h

theorem strBodyN_cons (q c : Char) (rest : List Char) :
    strBodyN q (c :: rest) =
      (if c = q then some 1
       else if c = bslash then
         (match rest with
          | [] => none
          | d :: rest2 =>
            if isDot d then Option.map (fun n => n + 2) (strBodyN q rest2) else none)
       else Option.map (fun n => n + 1) (strBodyN q rest)) := by
  cases rest with
  | nil => rfl
  | cons d rest2 => rfl

theorem bcBodyN_cons_cons (c d : Char) (rest : List Char) :
    bcBodyN (c :: d :: rest) =
      (if c = '*' && d = '/' then some 2
       else if c = '\r' && d = '\n' then Option.map (fun n => n + 2) (bcBodyN rest)
       else if c = '\n' || isDot c then Option.map (fun n => n + 1) (bcBodyN (d :: rest))
       else none) := rfl

theorem lcBodyN_cons (c : Char) (rest : List Char) :
    lcBodyN (c :: rest) =
      (if c = '\n' then some 1
       else if c = '\r' then
         (match rest with
          | d :: _ => if d = '\n' then some 2 else none
          | [] => none)
       else if isDot c then Option.map (fun n => n + 1) (lcBodyN rest)
       else none) := by
  cases rest with
  | nil => rfl
  | cons d rest2 => rfl

theorem strBodyOk_cons (q c : Char) (rest : List Char) :
    strBodyOk q (c :: rest) =
      (if c = q then false
       else if c = bslash then
         (match rest with
          | [] => false
          | d :: rest2 => isDot d && strBodyOk q rest2)
       else strBodyOk q rest) := by
  cases rest with
  | nil => rfl
  | cons d rest2 => rfl

theorem strBodyN_append (q : Char) : ∀ (n : Nat) (b : List Char), b.length ≤ n →
    strBodyOk q b = true → ∀ rest, strBodyN q (b ++ q :: rest) = some (b.length + 1) := by
  intro n
  induction n with
  | zero =>
    intro b hb _ rest
    have hnil : b = [] := List.eq_nil_of_length_eq_zero (Nat.le_zero.mp hb)
    subst hnil
    rw [List.nil_append, strBodyN_cons, if_pos rfl]
    rfl
  | succ m ih =>
    intro b hb hok rest
    cases b with
    | nil =>
      rw [List.nil_append, strBodyN_cons, if_pos rfl]
      rfl
    | cons c cs =>
      rw [strBodyOk_cons] at hok
      by_cases hcq : c = q
      · rw [if_pos hcq] at hok
        cases hok
      · rw [if_neg hcq] at hok
        by_cases hcb : c = bslash
        · rw [if_pos hcb] at hok
          cases cs with
          | nil => exact Bool.noConfusion hok
          | cons d cs2 =>
            simp only [Bool.and_eq_true] at hok
            obtain ⟨hd, hok2⟩ := hok
            simp only [List.length_cons] at hb
            have hrec := ih cs2 (by omega) hok2 rest
            rw [List.cons_append, List.cons_append, strBodyN_cons, if_neg hcq, if_pos hcb]
            simp only [if_pos hd]
            rw [hrec]
            simp only [Option.map_some', List.length_cons]
        · rw [if_neg hcb] at hok
          simp only [List.length_cons] at hb
          have hrec := ih cs (by omega) hok rest
          rw [List.cons_append, strBodyN_cons, if_neg hcq, if_neg hcb, hrec]
          simp only [Option.map_some', List.length_cons]

theorem bcBodyN_term (rest : List Char) : bcBodyN ('*' :: '/' :: rest) = some 2 := by
  rw [bcBodyN_cons_cons]
  simp

theorem bcBodyN_append : ∀ (n : Nat) (b : List Char), b.length ≤ n →
    blockBodyOk b = true → ∀ rest, bcBodyN (b ++ '*' :: '/' :: rest) = some (b.length + 2) := by
  intro n
  induction n with
  | zero =>
    intro b hb _ rest
    have hnil : b = [] := List.eq_nil_of_length_eq_zero (Nat.le_zero.mp hb)
    subst hnil
    simp [bcBodyN_term]
  | succ m ih =>
    intro b hb hok rest
    cases b with
    | nil => simp [bcBodyN_term]
    | cons c cs =>
      cases cs with
      | nil =>
        simp only [blockBodyOk, Bool.or_eq_true] at hok
        have hcok : (c = '\n' || isDot c) = true := by
          rcases hok with h1 | h2
          · simp [h1]
          · simp [h2]
        rw [List.cons_append, List.nil_append, bcBodyN_cons_cons]
        have h1 : ¬ ((c = '*' && ('*' : Char) = '/') = true) := by simp
        have h2 : ¬ ((c = '\r' && ('*' : Char) = '\n') = true) := by simp
        rw [if_neg h1, if_neg h2, if_pos hcok, bcBodyN_term]
        rfl
      | cons d cs2 =>
        simp only [blockBodyOk] at hok
        by_cases hsd : (c = '*' && d = '/') = true
        · rw [if_pos hsd] at hok
          cases hok
        · rw [if_neg hsd] at hok
          by_cases hcr : (c = '\r' && d = '\n') = true
          · rw [if_pos hcr] at hok
            simp only [List.length_cons] at hb
            have hrec := ih cs2 (by omega) hok rest
            rw [List.cons_append, List.cons_append, bcBodyN_cons_cons, if_neg hsd, if_pos hcr,
              hrec]
            simp only [Option.map_some', List.length_cons]
          · rw [if_neg hcr] at hok
            by_cases hcd : (c = '\n' || isDot c) = true
            · rw [if_pos hcd] at hok
              simp only [List.length_cons] at hb
              have hrec := ih (d :: cs2) (by simp only [List.length_cons]; omega) hok rest
              rw [List.cons_append, List.cons_append, bcBodyN_cons_cons, if_neg hsd, if_neg hcr,
                if_pos hcd]
              rw [List.cons_append] at hrec
              rw [hrec]
              simp only [Option.map_some', List.length_cons]
            · rw [if_neg hcd] at hok
              cases hok

theorem lcBodyN_dot_cons (c : Char) (l : List Char) (hc : isDot c = true) :
    lcBodyN (c :: l) = Option.map (fun n => n + 1) (lcBodyN l) := by
  rw [lcBodyN_cons, if_neg (isDot_ne_nl c hc), if_neg (isDot_ne_cr c hc), if_pos hc]

theorem lcBodyN_nl (b : List Char) (hb : b.all isDot = true) :
    ∀ rest, lcBodyN (b ++ '\n' :: rest) = some (b.length + 1) := by
  induction b with
  | nil =>
    intro rest
    simp [lcBodyN_cons]
  | cons c cs ih =>
    intro rest
    simp only [List.all_cons, Bool.and_eq_true] at hb
    rw [List.cons_append, lcBodyN_dot_cons c _ hb.1, ih hb.2 rest]
    simp only [Option.map_some', List.length_cons]

theorem lcBodyN_crnl (b : List Char) (hb : b.all isDot = true) :
    ∀ rest, lcBodyN (b ++ '\r' :: '\n' :: rest) = some (b.length + 2) := by
  induction b with
  | nil =>
    intro rest
    simp [lcBodyN_cons]
  | cons c cs ih =>
    intro rest
    simp only [List.all_cons, Bool.and_eq_true] at hb
    rw [List.cons_append, lcBodyN_dot_cons c _ hb.1, ih hb.2 rest]
    simp only [Option.map_some', List.length_cons]

theorem lcBodyN_eof (b : List Char) (hb : b.all isDot = true) :
    lcBodyN b = some b.length := by
  induction b with
  | nil => rfl
  | cons c cs ih =>
    simp only [List.all_cons, Bool.and_eq_true] at hb
    rw [lcBodyN_dot_cons c _ hb.1, ih hb.2]
    simp only [Option.map_some', List.length_cons]

theorem tryToken_dq (xs : List Char) :
    tryToken ('"' :: xs) = Option.map (fun n => (MatchKind.str, n + 1)) (strBodyN '"' xs) := rfl

theorem tryToken_sq (xs : List Char) :
    tryToken (squoteC :: xs) =
      Option.map (fun n => (MatchKind.str, n + 1)) (strBodyN squoteC xs) := rfl

theorem tryToken_block (xs : List Char) :
    tryToken ('/' :: '*' :: xs) =
      Option.map (fun n => (MatchKind.block, n + 2)) (bcBodyN xs) := rfl

theorem tryToken_line (xs : List Char) :
    tryToken ('/' :: '/' :: xs) =
      Option.map (fun n => (MatchKind.line, n + 2)) (lcBodyN xs) := rfl

theorem tryToken_cons (c : Char) (rest : List Char) :
    tryToken (c :: rest) =
      (if c = '"' then Option.map (fun n => (MatchKind.str, n + 1)) (strBodyN '"' rest)
       else if c = squoteC then
         Option.map (fun n => (MatchKind.str, n + 1)) (strBodyN squoteC rest)
       else if c = '/' then
         (match rest with
          | [] => none
          | d :: rest2 =>
            if d = '*' then Option.map (fun n => (MatchKind.block, n + 2)) (bcBodyN rest2)
            else if d = '/' then Option.map (fun n => (MatchKind.line, n + 2)) (lcBodyN rest2)
            else none)
       else none) := by
  cases rest with
  | nil => rfl
  | cons d rest2 => rfl

theorem tryToken_other (c : Char) (xs : List Char) (h1 : c ≠ '"') (h2 : c ≠ squoteC)
    (h3 : c ≠ '/') : tryToken (c :: xs) = none := by
  rw [tryToken_cons, if_neg h1, if_neg h2, if_neg h3]

theorem stripComments_cons_some (c : Char) (cs : List Char) (k : MatchKind) (n : Nat)
    (h : tryToken (c :: cs) = some (k, n)) :
    stripComments (c :: cs) =
      commentReplacement k ((c :: cs).take n) ++ stripComments ((c :: cs).drop n) := by
  have hn := tryToken_pos _ _ _ h
  have hfuel : stripGo cs.length ((c :: cs).drop n) = stripComments ((c :: cs).drop n) :=
    stripGo_eq_stripComments _ _ (by simp only [List.length_drop, List.length_cons]; omega)
  simp only [stripComments, List.length_cons, stripGo, h]
  rw [hfuel]
  rfl

theorem stripComments_cons_none (c : Char) (cs : List Char)
    (h : tryToken (c :: cs) = none) :
    stripComments (c :: cs) = c :: stripComments cs := by
  simp only [stripComments, List.length_cons, stripGo, h]

theorem stripComments_consume (l rest : List Char) (k : MatchKind)
    (h : tryToken (l ++ rest) = some (k, l.length)) (hl : l ≠ []) :
    stripComments (l ++ rest) = commentReplacement k l ++ stripComments rest := by
  cases l with
  | nil => exact absurd rfl hl
  | cons c l2 =>
    rw [List.cons_append] at h ⊢
    rw [stripComments_cons_some c (l2 ++ rest) k (c :: l2).length h]
    rw [← List.cons_append, List.take_left, List.drop_left]

theorem slashslash_getLast_ne (b : List Char) (hb : b.all isDot = true) (x : Char)
    (hxd : isDot x = false) (hxs : x ≠ '/') : ('/' :: '/' :: b).getLast? ≠ some x := by
  intro habs
  have hmem : x ∈ ('/' :: '/' :: b) :=
    List.mem_of_mem_getLast? (Option.mem_def.mpr habs)
  simp only [List.mem_cons] at hmem
  rcases hmem with h1 | h1 | h1
  · exact hxs h1
  · exact hxs h1
  · have := List.all_eq_true.mp hb x h1
    rw [hxd] at this
    cases this

theorem commentReplacement_line_nl (b : List Char) (hb : b.all isDot = true) :
    commentReplacement MatchKind.line ('/' :: '/' :: (b ++ ['\n'])) = ['\n'] := by
  have hshape : ('/' :: '/' :: (b ++ ['\n'])) = ('/' :: '/' :: b) ++ ['\n'] := by simp
  have hlen : 2 < ('/' :: '/' :: (b ++ ['\n'])).length := by simp
  have hlast : ('/' :: '/' :: (b ++ ['\n'])).getLast? = some '\n' := by
    rw [hshape]
    exact List.getLast?_concat _
  have hdrop : ('/' :: '/' :: (b ++ ['\n'])).dropLast = '/' :: '/' :: b := by
    rw [hshape]
    exact List.dropLast_concat
  simp only [commentReplacement]
  rw [if_pos ⟨hlen, hlast⟩, hdrop,
    if_neg (slashslash_getLast_ne b hb '\r' (by decide) (by decide))]

theorem commentReplacement_line_crnl (b : List Char) (hb : b.all isDot = true) :
    commentReplacement MatchKind.line ('/' :: '/' :: (b ++ ['\r', '\n'])) = ['\r', '\n'] := by
  have hshape : ('/' :: '/' :: (b ++ ['\r', '\n'])) = (('/' :: '/' :: b) ++ ['\r']) ++ ['\n'] := by
    simp
  have hlen : 2 < ('/' :: '/' :: (b ++ ['\r', '\n'])).length := by simp
  have hlast : ('/' :: '/' :: (b ++ ['\r', '\n'])).getLast? = some '\n' := by
    rw [hshape]
    exact List.getLast?_concat _
  have hdrop : ('/' :: '/' :: (b ++ ['\r', '\n'])).dropLast = ('/' :: '/' :: b) ++ ['\r'] := by
    rw [hshape]
    exact List.dropLast_concat
  simp only [commentReplacement]
  rw [if_pos ⟨hlen, hlast⟩, hdrop, if_pos (List.getLast?_concat _)]

theorem commentReplacement_line_eof (b : List Char) (hb : b.all isDot = true) :
    commentReplacement MatchKind.line ('/' :: '/' :: b) = [] := by
  simp only [commentReplacement]
  rw [if_neg (fun hc => slashslash_getLast_ne b hb '\n' (by decide) (by decide) hc.2)]

theorem stripComments_token (t : JToken) (rest : List Char) (hok : tokOk t = true)
    (hterm : lineTerminated t = true ∨ rest = []) :
    stripComments (renderTok t ++ rest) = stripTokRepl t ++ stripComments rest := by
  cases t with
  | dstr b =>
    have hok2 : strBodyOk '"' b = true := hok
    have hb := strBodyN_append '"' b.length b (le_refl _) hok2 rest
    have htt : tryToken (renderTok (JToken.dstr b) ++ rest) =
        some (MatchKind.str, (renderTok (JToken.dstr b)).length) := by
      have hform : renderTok (JToken.dstr b) ++ rest = '"' :: (b ++ ('"' :: rest)) := by
        simp [renderTok]
      rw [hform, tryToken_dq, hb]
      simp [renderTok]
    rw [stripComments_consume _ rest MatchKind.str htt (by simp [renderTok])]
    rfl
  | sstr b =>
    have hok2 : strBodyOk squoteC b = true := hok
    have hb := strBodyN_append squoteC b.length b (le_refl _) hok2 rest
    have htt : tryToken (renderTok (JToken.sstr b) ++ rest) =
        some (MatchKind.str, (renderTok (JToken.sstr b)).length) := by
      have hform : renderTok (JToken.sstr b) ++ rest = squoteC :: (b ++ (squoteC :: rest)) := by
        simp [renderTok]
      rw [hform, tryToken_sq, hb]
      simp [renderTok]
    rw [stripComments_consume _ rest MatchKind.str htt (by simp [renderTok])]
    rfl
  | blockc b =>
    have hok2 : blockBodyOk b = true := hok
    have hb := bcBodyN_append b.length b (le_refl _) hok2 rest
    have htt : tryToken (renderTok (JToken.blockc b) ++ rest) =
        some (MatchKind.block, (renderTok (JToken.blockc b)).length) := by
      have hform : renderTok (JToken.blockc b) ++ rest =
          '/' :: '*' :: (b ++ ('*' :: '/' :: rest)) := by
        simp [renderTok]
      rw [hform, tryToken_block, hb]
      simp [renderTok]
    rw [stripComments_consume _ rest MatchKind.block htt (by simp [renderTok])]
    rfl
  | linec b nl =>
    have hok2 : (b.all isDot && (nl == ['\n'] || nl == ['\r', '\n'] || nl == [])) = true := hok
    simp only [Bool.and_eq_true, Bool.or_eq_true, beq_iff_eq] at hok2
    obtain ⟨hball, hnl⟩ := hok2
    rcases hnl with (hnl | hnl) | hnl
    · subst hnl
      have htt : tryToken (renderTok (JToken.linec b ['\n']) ++ rest) =
          some (MatchKind.line, (renderTok (JToken.linec b ['\n'])).length) := by
        have hform : renderTok (JToken.linec b ['\n']) ++ rest =
            '/' :: '/' :: (b ++ ('\n' :: rest)) := by
          simp [renderTok]
        rw [hform, tryToken_line, lcBodyN_nl b hball rest]
        simp [renderTok]
      rw [stripComments_consume _ rest MatchKind.line htt (by simp [renderTok])]
      show commentReplacement MatchKind.line ('/' :: '/' :: (b ++ ['\n'])) ++
        stripComments rest = ['\n'] ++ stripComments rest
      rw [commentReplacement_line_nl b hball]
    · subst hnl
      have htt : tryToken (renderTok (JToken.linec b ['\r', '\n']) ++ rest) =
          some (MatchKind.line, (renderTok (JToken.linec b ['\r', '\n'])).length) := by
        have hform : renderTok (JToken.linec b ['\r', '\n']) ++ rest =
            '/' :: '/' :: (b ++ ('\r' :: '\n' :: rest)) := by
          simp [renderTok]
        rw [hform, tryToken_line, lcBodyN_crnl b hball rest]
        simp [renderTok]
      rw [stripComments_consume _ rest MatchKind.line htt (by simp [renderTok])]
      show commentReplacement MatchKind.line ('/' :: '/' :: (b ++ ['\r', '\n'])) ++
        stripComments rest = ['\r', '\n'] ++ stripComments rest
      rw [commentReplacement_line_crnl b hball]
    · subst hnl
      have hrest : rest = [] := by
        rcases hterm with h1 | h1
        · simp [lineTerminated] at h1
        · exact h1
      subst hrest
      have htt : tryToken (renderTok (JToken.linec b []) ++ []) =
          some (MatchKind.line, (renderTok (JToken.linec b [])).length) := by
        have hform : renderTok (JToken.linec b []) ++ [] = '/' :: '/' :: b := by
          simp [renderTok]
        rw [hform, tryToken_line, lcBodyN_eof b hball]
        simp [renderTok]
      rw [stripComments_consume _ [] MatchKind.line htt (by simp [renderTok])]
      show commentReplacement MatchKind.line ('/' :: '/' :: (b ++ [])) ++ stripComments [] =
        [] ++ stripComments []
      rw [List.append_nil, commentReplacement_line_eof b hball]
  | raw c =>
    have hok2 : (¬ c = '"' ∧ ¬ c = squoteC) ∧ ¬ c = '/' := by
      simpa [tokOk] using hok
    have htt := tryToken_other c rest hok2.1.1 hok2.1.2 hok2.2
    show stripComments ([c] ++ rest) = [c] ++ stripComments rest
    rw [List.singleton_append, List.singleton_append]
    exact stripComments_cons_none c rest htt

theorem wfToks_cons (t : JToken) (ts : List JToken) (h : wfToks (t :: ts) = true) :
    tokOk t = true ∧ wfToks ts = true ∧ (lineTerminated t = true ∨ ts = []) := by
  cases ts with
  | nil => exact ⟨h, rfl, Or.inr rfl⟩
  | cons u us =>
    have h2 : (tokOk t && lineTerminated t && wfToks (u :: us)) = true := h
    simp only [Bool.and_eq_true] at h2
    exact ⟨h2.1.1, h2.2, Or.inl h2.1.2⟩

/-- C7: on every well-formed JSONC token sequence, stripComments applied to
the rendered text equals the reference stripper that ignores comment syntax
inside string literals: string literals (with their comment-like content) are
preserved verbatim and only real comments are replaced. The stripped texts
being equal, parsing them yields the same value. -/
theorem stripComments_agrees_with_referenceStrip (ts : List JToken)
    (h : wfToks ts = true) :
    stripComments (renderToks ts) = referenceStrip ts := by
  induction ts with
  | nil => rfl
  | cons t ts ih =>
    obtain ⟨hok, hwf, hterm⟩ := wfToks_cons t ts h
    have hterm2 : lineTerminated t = true ∨ renderToks ts = [] := by
      rcases hterm with h1 | h1
      · exact Or.inl h1
      · subst h1
        exact Or.inr rfl
    have hrender : renderToks (t :: ts) = renderTok t ++ renderToks ts := by
      simp [renderToks]
    have href : referenceStrip (t :: ts) = stripTokRepl t ++ referenceStrip ts := by
      simp [referenceStrip]
    rw [hrender, stripComments_token t (renderToks ts) hok hterm2, ih hwf, href]

/-- C7 witness: a concrete well-formed JSONC token sequence containing a
string literal with comment-like content, a block comment and a line
comment. -/
theorem stripComments_agrees_witness :
    wfToks [JToken.dstr ("a//b".toList), JToken.raw ':', JToken.blockc (" x ".toList),
      JToken.linec (" note".toList) ['\n'], JToken.raw '1'] = true ∧
    stripComments (renderToks [JToken.dstr ("a//b".toList), JToken.raw ':',
      JToken.blockc (" x ".toList), JToken.linec (" note".toList) ['\n'], JToken.raw '1']) =
      referenceStrip [JToken.dstr ("a//b".toList), JToken.raw ':',
        JToken.blockc (" x ".toList), JToken.linec (" note".toList) ['\n'], JToken.raw '1'] :=
  ⟨by decide, stripComments_agrees_with_referenceStrip _ (by decide)⟩

/-- C6: stripComments removes a block comment entirely; a line comment ending
in a line feed is replaced by that line feed, preceded by the carriage return
when the comment ended in a carriage-return/line-feed pair; and a line
comment at the end of the input with no trailing newline is removed
entirely. -/
theorem stripComments_comment_handling (b d rest : List Char)
    (hb : blockBodyOk b = true) (hd : d.all isDot = true) :
    (stripComments ('/' :: '*' :: (b ++ '*' :: '/' :: rest)) = stripComments rest) ∧
    (stripComments ('/' :: '/' :: (d ++ '\n' :: rest)) = '\n' :: stripComments rest) ∧
    (stripComments ('/' :: '/' :: (d ++ '\r' :: '\n' :: rest)) =
      '\r' :: '\n' :: stripComments rest) ∧
    (stripComments ('/' :: '/' :: d) = []) := by
  refine ⟨?_, ?_, ?_, ?_⟩
  · have h := stripComments_token (JToken.blockc b) rest hb (Or.inl rfl)
    rw [show renderTok (JToken.blockc b) ++ rest = '/' :: '*' :: (b ++ '*' :: '/' :: rest)
      from by simp [renderTok]] at h
    rw [h]
    rfl
  · have hok : tokOk (JToken.linec d ['\n']) = true := by
      simp [tokOk, hd]
    have h := stripComments_token (JToken.linec d ['\n']) rest hok (Or.inl rfl)
    rw [show renderTok (JToken.linec d ['\n']) ++ rest = '/' :: '/' :: (d ++ '\n' :: rest)
      from by simp [renderTok]] at h
    rw [h]
    rfl
  · have hok : tokOk (JToken.linec d ['\r', '\n']) = true := by
      simp [tokOk, hd]
    have h := stripComments_token (JToken.linec d ['\r', '\n']) rest hok (Or.inl rfl)
    rw [show renderTok (JToken.linec d ['\r', '\n']) ++ rest =
        '/' :: '/' :: (d ++ '\r' :: '\n' :: rest) from by simp [renderTok]] at h
    rw [h]
    rfl
  · have hok : tokOk (JToken.linec d []) = true := by
      simp [tokOk, hd]
    have h := stripComments_token (JToken.linec d []) [] hok (Or.inr rfl)
    rw [show renderTok (JToken.linec d []) ++ [] = '/' :: '/' :: d
      from by simp [renderTok]] at h
    rw [h]
    rfl

/-- C6 witness: concrete block and line comments. -/
theorem stripComments_comment_handling_witness :
    blockBodyOk ['x'] = true ∧ (['y'] : List Char).all isDot = true ∧
    stripComments ('/' :: '*' :: (['x'] ++ '*' :: '/' :: ['a'])) = stripComments ['a'] ∧
    stripComments ('/' :: '/' :: ['y']) = [] := by
  refine ⟨by decide, by decide, ?_, ?_⟩
  · exact (stripComments_comment_handling ['x'] ['y'] ['a'] (by decide) (by decide)).1
  · exact (stripComments_comment_handling ['x'] ['y'] ['a'] (by decide) (by decide)).2.2.2
